import Mathlib

/-!
Verification of the moderation-and-orchestration pipeline of
Songraphix/KODECAMP_PROJECTS, file src/app.js.

Modelling conventions.
* JavaScript strings are modelled as `List Char`; constant string
  literals that never enter inductive proofs are kept as Lean `String`
  and converted through `String.data` where needed.
* Case folding (`text.toLowerCase()`, and the `i` flag of the regexes
  built on line 50) is modelled on the ASCII range: `A`-`Z` map to
  `a`-`z`, every other character is fixed.  All six denylist terms are
  lowercase ASCII words, so on the ASCII range this is exactly the
  source behaviour.
* The denylist regexes (`new RegExp(keyword, 'gi')`) contain no regex
  metacharacters, so they are literal, case-insensitive, global
  substring matchers; `String.prototype.replace` with a `g`-flagged
  regex resets `lastIndex` and performs leftmost, non-overlapping
  global replacement, which `replaceAllCI` below reproduces.
* Fallible operations return `Except`; the outbound network activity of
  the completion client is made observable as a list of issued
  `HttpRequest` values, so "no network call happens" is the statement
  that this list is empty.

A central structural fact of the source: on line 75 the brace pair `}}`
closes both the `if (!OPENROUTER_API_KEY)` conditional *and* the
function `callDeepseekAPI` declared on line 66.  The request-building
and response-handling code of lines 77-117 therefore sits at module top
level, outside every function.  `callDeepseekAPI` below embeds the
function as parsed (its body is only the credential check); the
stranded block is embedded separately as `strandedRequest` /
`strandedHandleResponse`.
-/

set_option maxHeartbeats 1000000

/-- ASCII case folding of one character: models `String.prototype.toLowerCase`
and the canonicalisation done by the `i` regex flag, restricted to the ASCII
range (`A`-`Z` become `a`-`z`, everything else is fixed). -/
def toLowerChar (c : Char) : Char :=
  if 65 ≤ c.toNat ∧ c.toNat ≤ 90 then Char.ofNat (c.toNat + 32) else c

/-- `text.toLowerCase()` on the character-list model. -/
def toLowerCase (text : List Char) : List Char := text.map toLowerChar

/-- Lines 18-25: `const BANNED_KEYWORDS = ['kill','hack','bomb','exploit','violence','rape']`. -/
def BANNED_KEYWORDS : List (List Char) :=
  [ ['k', 'i', 'l', 'l'],
    ['h', 'a', 'c', 'k'],
    ['b', 'o', 'm', 'b'],
    ['e', 'x', 'p', 'l', 'o', 'i', 't'],
    ['v', 'i', 'o', 'l', 'e', 'n', 'c', 'e'],
    ['r', 'a', 'p', 'e'] ]

/-- The needle is an initial segment of the hay (character-exact).  Building
block of the substring search behind `String.prototype.includes`. -/
def beginsWith : List Char → List Char → Bool
  | [], _ => true
  | _ :: _, [] => false
  | k :: ks, c :: cs => k == c && beginsWith ks cs

/-- `hay.includes(needle)`: the needle occurs character-exactly somewhere in
the hay. -/
def containsSub (needle : List Char) : List Char → Bool
  | [] => needle.isEmpty
  | c :: cs => beginsWith needle (c :: cs) || containsSub needle cs

/-- Lines 36-39: `containsBannedContent(text)` lower-cases the text and asks
whether some banned keyword occurs in it as a substring. -/
def containsBannedContent (text : List Char) : Bool :=
  let lowerCaseText := toLowerCase text
  BANNED_KEYWORDS.any fun keyword => containsSub keyword lowerCaseText

/-- The `gi`-flagged literal pattern `kw` matches at the start of the text:
each pattern character (already lowercase) equals the folded text
character. -/
def matchesAt : List Char → List Char → Bool
  | [], _ => true
  | _ :: _, [] => false
  | k :: ks, c :: cs => k == toLowerChar c && matchesAt ks cs

/-- `regex.test(text)` for the `gi`-flagged literal pattern (line 51): a match
starts at some position of the text. -/
def testCI (kw : List Char) : List Char → Bool
  | [] => kw.isEmpty
  | c :: cs => matchesAt kw (c :: cs) || testCI kw cs

/-- `text.replace(regex, marker)` for the `gi`-flagged literal pattern `kw`
(line 53): leftmost, non-overlapping, global replacement.  On a match the
scanner emits the marker and resumes after the matched span (`kw` is nonempty
at every call site); otherwise it copies one character and advances. -/
def replaceAllCI (kw marker : List Char) : List Char → List Char
  | [] => []
  | c :: cs =>
    if matchesAt kw (c :: cs) then
      marker ++ replaceAllCI kw marker (cs.drop (kw.length - 1))
    else
      c :: replaceAllCI kw marker cs
termination_by l => l.length
decreasing_by
  · simp only [List.length_drop, List.length_cons]
    omega
  · simp only [List.length_cons]
    omega

/-- The replacement marker literal of line 53. -/
def REDACTED : List Char := ['[', 'R', 'E', 'D', 'A', 'C', 'T', 'E', 'D', ']']

/-- The interior letters of the marker (used to state that no banned term
hides inside the marker). -/
def REDACTED_LETTERS : List Char := ['R', 'E', 'D', 'A', 'C', 'T', 'E', 'D']

/-- The object literal returned on lines 56-59. -/
structure ModerationVerdict where
  isSafe : Bool
  text : List Char

/-- One iteration of the `forEach` loop of lines 49-55: test the current
working copy against the keyword's regex; on a hit, record the find and
replace every match with the marker. -/
def moderationStep (acc : Bool × List Char) (keyword : List Char) : Bool × List Char :=
  if testCI keyword acc.2 then (true, replaceAllCI keyword REDACTED acc.2) else acc

/-- Lines 46-59: `moderateOutput(text)`.  The pair accumulates the mutable
variables `foundBannedContent` and `moderatedText`. -/
def moderateOutput (text : List Char) : ModerationVerdict :=
  let r := BANNED_KEYWORDS.foldl moderationStep (false, text)
  { isSafe := !r.1, text := r.2 }

/-- Error taxonomy of the completion client (spec section 7; the source throws
`Error` objects whose messages carry the same data). -/
inductive ApiError where
  | configError (message : String)
  | httpError (status : Nat) (body : String)
  | emptyResponse

/-- The message of the error thrown on lines 68-74. -/
def CONFIG_ERROR_MESSAGE : String :=
  "❌ OPENROUTER_API_KEY not found!\nPlease set it as an environment variable:\nWindows CMD: set OPENROUTER_API_KEY=your-key-here\nWindows PowerShell: $env:OPENROUTER_API_KEY=\"your-key-here\"\nThen run the script again.\n"

/-- Line 28: `process.env.OPENROUTER_API_KEY` is either absent or a string;
line 67 tests its JavaScript truthiness (absent and the empty string are both
falsy). -/
def keyIsConfigured : Option String → Bool
  | none => false
  | some s => !s.isEmpty

/-- Line 29. -/
def OPENROUTER_API_URL : String := "https://openrouter.ai/api/v1/chat/completions"

/-- Lines 13-15: the fixed system prompt (a template literal with embedded
newlines). -/
def SYSTEM_PROMPT : List Char :=
  ("You are a helpful, friendly, and safe AI assistant. \nYour goal is to provide accurate and constructive information.\nAlways be respectful and avoid generating harmful content.").data

/-- One element of the `messages` array of the request body (lines 80-83). -/
structure ChatMessage where
  role : String
  content : List Char

/-- The request body of lines 78-86.  The JavaScript number `0.7` is carried
as the rational `7/10` (it is a constant serialised verbatim; no arithmetic is
ever performed on it). -/
structure RequestBody where
  model : String
  messages : List ChatMessage
  max_tokens : Nat
  temperature : ℚ

/-- One outbound HTTP request as the `fetch` call of lines 89-98 would issue
it: URL, method, the four headers, and the JSON body. -/
structure HttpRequest where
  url : String
  method : String
  contentType : String
  authorization : String
  httpReferer : String
  xTitle : String
  body : RequestBody

/-- Lines 66-75, exactly as parsed: `async function callDeepseekAPI(userInput)`
whose body is *only* the credential check, because the brace pair on line 75
closes both the `if` and the function.  With a configured key the function
falls off the end (JavaScript `undefined`, modelled as `Unit`) having issued
no request; with a missing or empty key it throws the configuration error.
The second component lists the HTTP requests issued during the call: none on
either path. -/
def callDeepseekAPI (apiKey : Option String) (userInput : List Char) :
    Except ApiError Unit × List HttpRequest :=
  if keyIsConfigured apiKey then (Except.ok (), [])
  else (Except.error (ApiError.configError CONFIG_ERROR_MESSAGE), [])

/-- Lines 78-86 of the stranded top-level block: the request body it builds
from a user input. -/
def strandedRequestBody (userInput : List Char) : RequestBody :=
  { model := "deepseek/deepseek-chat",
    messages := [ { role := "system", content := SYSTEM_PROMPT },
                  { role := "user", content := userInput } ],
    max_tokens := 500,
    temperature := 7 / 10 }

/-- Lines 89-98 of the stranded top-level block: the single `fetch` request it
would issue, given a key and a user input. -/
def strandedRequest (apiKey : String) (userInput : List Char) : HttpRequest :=
  { url := OPENROUTER_API_URL,
    method := "POST",
    contentType := "application/json",
    authorization := "Bearer " ++ apiKey,
    httpReferer := "http://localhost:3000",
    xTitle := "AI Chat Moderation App",
    body := strandedRequestBody userInput }

/-- JavaScript whitespace test for `String.prototype.trim`, restricted to the
ASCII range (space, tab, line feed, carriage return, vertical tab, form
feed). -/
def isJsWhitespace (c : Char) : Bool :=
  c == ' ' || c == '\t' || c == '\n' || c == '\r' || c == '\x0b' || c == '\x0c'

/-- `s.trim()`: strip whitespace from both ends. -/
def jsTrim (l : List Char) : List Char :=
  ((l.dropWhile isJsWhitespace).reverse.dropWhile isJsWhitespace).reverse

/-- Lines 100-112 of the stranded top-level block: response handling.
`response.ok` is `fetch`'s 2xx check; on failure the body text is read and an
error carrying status and body is thrown (line 102); on success the optional
chain `data.choices?.[0]?.message?.content` is extracted (`none` models an
absent path), absent or empty content raises the empty-response error
(line 109), and otherwise the trimmed content is returned (line 112). -/
def strandedHandleResponse (status : Nat) (bodyText : String)
    (content : Option (List Char)) : Except ApiError (List Char) :=
  if 200 ≤ status ∧ status ≤ 299 then
    match content with
    | none => Except.error ApiError.emptyResponse
    | some msg =>
      if msg.isEmpty then Except.error ApiError.emptyResponse
      else Except.ok (jsTrim msg)
  else Except.error (ApiError.httpError status bodyText)

/-- Outcome of one run of `main` (spec's `PipelineResult`). -/
inductive PipelineResult where
  | emptyInput
  | inputRejected
  | failed (e : ApiError)
  | completed (verdict : ModerationVerdict)

/-- Lines 119-170: the orchestrator `main`, from the input gate onward.

Modelled from the spec: line 146 invokes `callOpenRouter`, an identifier no
code in the repository defines (the function actually defined is
`callDeepseekAPI`), so the completion client is taken as an abstract
parameter with the spec's contract `complete(userMessage) -> Result<string,
ApiError>`.  Everything around that call is the source's control flow: the
emptiness gate of lines 131-134, the input-moderation gate of lines 138-142,
output moderation on line 150, and the display of lines 153-163.  The second
component records the arguments the client was invoked with (empty list means
the remote call was never made). -/
def mainRun (client : List Char → Except ApiError (List Char))
    (userPrompt : List Char) : PipelineResult × List (List Char) :=
  if (jsTrim userPrompt).isEmpty then (PipelineResult.emptyInput, [])
  else if containsBannedContent userPrompt then (PipelineResult.inputRejected, [])
  else
    match client userPrompt with
    | Except.error e => (PipelineResult.failed e, [userPrompt])
    | Except.ok aiResponse =>
      (PipelineResult.completed (moderateOutput aiResponse), [userPrompt])

/-- What a run prints as the AI response: lines 159-163 print
`moderationResult.text` unconditionally in the completed path (the `isSafe`
test of line 153 only selects the banner above it); no other path prints a
response. -/
def displayedText : PipelineResult → Option (List Char)
  | PipelineResult.completed v => some v.text
  | _ => none

/-- `w` occurs as a contiguous block of `l` (the specification-level notion of
"substring occurrence" used throughout the proofs). -/
def Occurs (w l : List Char) : Prop := ∃ a b, l = a ++ w ++ b

/-- Lowercase ASCII letter test; every character of every banned keyword
satisfies it, and the marker's delimiters `[` and `]` do not. -/
def isLowerAlpha (c : Char) : Bool := 97 ≤ c.toNat && c.toNat ≤ 122

/-- The properties of a denylist term that the redaction arguments rely on:
nonempty, made of lowercase ASCII letters, and not hidden inside the marker's
interior letters.  All six entries of `BANNED_KEYWORDS` satisfy it (proved by
evaluation below). -/
def goodWord (w : List Char) : Prop :=
  w ≠ [] ∧ (∀ c ∈ w, isLowerAlpha c = true) ∧ testCI w REDACTED_LETTERS = false

theorem occurs_nil_iff (w : List Char) : Occurs w [] ↔ w = [] := by
  constructor
  · rintro ⟨a, b, h⟩
    rcases List.append_eq_nil.mp h.symm with ⟨h1, h2⟩
    exact (List.append_eq_nil.mp h1).2
  · rintro rfl
    exact ⟨[], [], rfl⟩

theorem occurs_cons_of (w l : List Char) (c : Char) (h : Occurs w l) :
    Occurs w (c :: l) := by
  obtain ⟨a, b, rfl⟩ := h
  exact ⟨c :: a, b, rfl⟩

theorem occurs_append_left (w x y : List Char) (h : Occurs w x) :
    Occurs w (x ++ y) := by
  obtain ⟨a, b, rfl⟩ := h
  exact ⟨a, b ++ y, by simp⟩

theorem occurs_append_right (w x y : List Char) (h : Occurs w y) :
    Occurs w (x ++ y) := by
  obtain ⟨a, b, rfl⟩ := h
  exact ⟨x ++ a, b, by simp⟩

theorem occurs_cons_iff (w l : List Char) (c : Char) :
    Occurs w (c :: l) ↔ (∃ r, c :: l = w ++ r) ∨ Occurs w l := by
  constructor
  · rintro ⟨a, b, h⟩
    cases a with
    | nil => exact Or.inl ⟨b, by simpa using h⟩
    | cons x a' =>
      rw [List.cons_append, List.cons_append] at h
      obtain ⟨rfl, hl⟩ := List.cons.inj h
      exact Or.inr ⟨a', b, by simpa using hl⟩
  · rintro (⟨r, hr⟩ | h)
    · exact ⟨[], r, by simpa using hr⟩
    · exact occurs_cons_of w l c h

theorem begins_cut (b : Char) :
    ∀ w y z : List Char, b ∉ w → (∃ t, y ++ b :: z = w ++ t) → ∃ r, y = w ++ r := by
  intro w
  induction w with
  | nil => intro y z _ _; exact ⟨y, rfl⟩
  | cons k ks ih =>
    intro y z hb ⟨t, ht⟩
    cases y with
    | nil =>
      simp only [List.nil_append, List.cons_append, List.cons.injEq] at ht
      exact absurd (ht.1 ▸ List.mem_cons_self k ks) hb
    | cons c y' =>
      simp only [List.cons_append, List.cons.injEq] at ht
      obtain ⟨r, hr⟩ := ih y' z (fun hmem => hb (List.mem_cons_of_mem _ hmem)) ⟨t, ht.2⟩
      exact ⟨r, by rw [ht.1, hr, List.cons_append]⟩

theorem occurs_barrier (w : List Char) (b : Char) (hb : b ∉ w) (hw : w ≠ []) :
    ∀ x y : List Char, Occurs w (x ++ b :: y) ↔ Occurs w x ∨ Occurs w y := by
  intro x y
  induction x with
  | nil =>
    simp only [List.nil_append]
    rw [occurs_cons_iff]
    constructor
    · rintro (⟨r, hr⟩ | h)
      · cases w with
        | nil => exact absurd rfl hw
        | cons k ks =>
          rw [List.cons_append] at hr
          exact absurd ((List.cons.inj hr).1 ▸ List.mem_cons_self k ks) hb
      · exact Or.inr h
    · rintro (h | h)
      · exact absurd h (by rw [occurs_nil_iff]; exact hw)
      · exact Or.inr h
  | cons c x' ih =>
    rw [List.cons_append, occurs_cons_iff]
    constructor
    · rintro (⟨r, hr⟩ | h)
      · cases w with
        | nil => exact absurd rfl hw
        | cons k ks =>
          rw [List.cons_append] at hr
          obtain ⟨hck, htail⟩ := List.cons.inj hr
          obtain ⟨r', hr'⟩ := begins_cut b ks x' y
            (fun hmem => hb (List.mem_cons_of_mem _ hmem)) ⟨r, htail⟩
          exact Or.inl ⟨[], r', by rw [hck, List.nil_append, List.cons_append, hr']⟩
      · rcases ih.mp h with h' | h'
        · exact Or.inl (occurs_cons_of w x' c h')
        · exact Or.inr h'
    · rintro (h | h)
      · rw [occurs_cons_iff] at h
        rcases h with ⟨r, hr⟩ | h'
        · exact Or.inl ⟨r ++ b :: y, by rw [← List.cons_append, hr, List.append_assoc]⟩
        · exact Or.inr (ih.mpr (Or.inl h'))
      · exact Or.inr (ih.mpr (Or.inr h))

theorem matchesAt_iff :
    ∀ w t : List Char, matchesAt w t = true ↔ ∃ r, toLowerCase t = w ++ r := by
  intro w
  induction w with
  | nil => intro t; simp [matchesAt]
  | cons k ks ih =>
    intro t
    cases t with
    | nil =>
      simp [matchesAt, toLowerCase]
    | cons c cs =>
      simp only [matchesAt, Bool.and_eq_true, beq_iff_eq, toLowerCase, List.map_cons,
        List.cons_append, List.cons.injEq]
      constructor
      · rintro ⟨hk, hm⟩
        obtain ⟨r, hr⟩ := (ih cs).mp hm
        exact ⟨r, hk.symm, by simpa [toLowerCase] using hr⟩
      · rintro ⟨r, hk, hr⟩
        exact ⟨hk.symm, (ih cs).mpr ⟨r, by simpa [toLowerCase] using hr⟩⟩

theorem testCI_iff :
    ∀ (kw t : List Char), testCI kw t = true ↔ Occurs kw (toLowerCase t) := by
  intro kw t
  induction t with
  | nil =>
    simp [testCI, toLowerCase, occurs_nil_iff, List.isEmpty_iff]
  | cons c cs ih =>
    simp only [testCI, Bool.or_eq_true]
    have hlc : toLowerCase (c :: cs) = toLowerChar c :: toLowerCase cs := by
      simp [toLowerCase]
    rw [hlc, occurs_cons_iff, ← hlc]
    constructor
    · rintro (h | h)
      · exact Or.inl (by simpa [hlc] using (matchesAt_iff kw (c :: cs)).mp h)
      · exact Or.inr (ih.mp h)
    · rintro (h | h)
      · exact Or.inl ((matchesAt_iff kw (c :: cs)).mpr (by simpa [hlc] using h))
      · exact Or.inr (ih.mpr h)

theorem beginsWith_iff :
    ∀ w t : List Char, beginsWith w t = true ↔ ∃ r, t = w ++ r := by
  intro w
  induction w with
  | nil => intro t; simp [beginsWith]
  | cons k ks ih =>
    intro t
    cases t with
    | nil => simp [beginsWith]
    | cons c cs =>
      simp only [beginsWith, Bool.and_eq_true, beq_iff_eq, List.cons_append, List.cons.injEq]
      constructor
      · rintro ⟨hk, hm⟩
        obtain ⟨r, hr⟩ := (ih cs).mp hm
        exact ⟨r, hk.symm, hr⟩
      · rintro ⟨r, hk, hr⟩
        exact ⟨hk.symm, (ih cs).mpr ⟨r, hr⟩⟩

theorem containsSub_iff :
    ∀ w t : List Char, containsSub w t = true ↔ Occurs w t := by
  intro w t
  induction t with
  | nil => simp [containsSub, occurs_nil_iff, List.isEmpty_iff]
  | cons c cs ih =>
    simp only [containsSub, Bool.or_eq_true]
    rw [occurs_cons_iff]
    constructor
    · rintro (h | h)
      · exact Or.inl ((beginsWith_iff w (c :: cs)).mp h)
      · exact Or.inr (ih.mp h)
    · rintro (h | h)
      · exact Or.inl ((beginsWith_iff w (c :: cs)).mpr h)
      · exact Or.inr (ih.mpr h)

theorem banned_good : ∀ kw ∈ BANNED_KEYWORDS, goodWord kw := by
  intro kw hkw
  simp only [BANNED_KEYWORDS, List.mem_cons, List.not_mem_nil, or_false] at hkw
  rcases hkw with rfl | rfl | rfl | rfl | rfl | rfl <;>
    exact ⟨by decide, by decide, by decide⟩

theorem occurs_through_marker (w : List Char) (hg : goodWord w) (s : List Char) :
    Occurs w (toLowerCase (REDACTED ++ s)) ↔ Occurs w (toLowerCase s) := by
  obtain ⟨hne, halpha, hrdt⟩ := hg
  have hlb : '[' ∉ w := fun hmem => absurd (halpha _ hmem) (by decide)
  have hrb : ']' ∉ w := fun hmem => absurd (halpha _ hmem) (by decide)
  have hmap : REDACTED.map toLowerChar = ['[', 'r', 'e', 'd', 'a', 'c', 't', 'e', 'd', ']'] := by
    decide
  have hsplit : toLowerCase (REDACTED ++ s)
      = '[' :: (['r', 'e', 'd', 'a', 'c', 't', 'e', 'd'] ++ (']' :: toLowerCase s)) := by
    calc toLowerCase (REDACTED ++ s) = REDACTED.map toLowerChar ++ toLowerCase s := by
          simp [toLowerCase]
      _ = _ := by rw [hmap]; simp
  rw [hsplit]
  have h1 := occurs_barrier w '[' hlb hne []
    (['r', 'e', 'd', 'a', 'c', 't', 'e', 'd'] ++ (']' :: toLowerCase s))
  rw [List.nil_append] at h1
  rw [h1, occurs_barrier w ']' hrb hne ['r', 'e', 'd', 'a', 'c', 't', 'e', 'd'] (toLowerCase s)]
  have h3 : ¬ Occurs w ['r', 'e', 'd', 'a', 'c', 't', 'e', 'd'] := by
    intro hocc
    have h4 : testCI w REDACTED_LETTERS = true := by
      rw [testCI_iff]
      rw [show toLowerCase REDACTED_LETTERS = ['r', 'e', 'd', 'a', 'c', 't', 'e', 'd'] from by decide]
      exact hocc
    rw [hrdt] at h4
    exact Bool.false_ne_true h4
  constructor
  · rintro (h | (h | h))
    · exact absurd h (by rw [occurs_nil_iff]; exact hne)
    · exact absurd h h3
    · exact h
  · intro h
    exact Or.inr (Or.inr h)

theorem begins_replace_matches (kw : List Char) :
    ∀ t w, w ≠ [] → (∀ c ∈ w, isLowerAlpha c = true) →
      (∃ r, toLowerCase (replaceAllCI kw REDACTED t) = w ++ r) → matchesAt w t = true := by
  intro t
  induction t using replaceAllCI.induct kw REDACTED with
  | case1 =>
    rintro w hne _ ⟨r, hr⟩
    rw [replaceAllCI] at hr
    simp only [toLowerCase, List.map_nil] at hr
    rcases w with _ | ⟨x, w'⟩
    · exact absurd rfl hne
    · exact absurd hr.symm (by simp)
  | case2 c cs hm ih =>
    rintro w hne halpha ⟨r, hr⟩
    rw [replaceAllCI, if_pos hm] at hr
    rcases w with _ | ⟨h, w'⟩
    · exact absurd rfl hne
    · exfalso
      have hr' : toLowerChar '[' ::
          toLowerCase (('R' :: 'E' :: 'D' :: 'A' :: 'C' :: 'T' :: 'E' :: 'D' :: ']' :: []) ++
            replaceAllCI kw REDACTED (cs.drop (kw.length - 1))) = h :: (w' ++ r) := by
        simpa [REDACTED, toLowerCase] using hr
      have hhead : h = '[' := by
        have h5 := (List.cons.inj hr').1
        rw [show toLowerChar '[' = '[' from by decide] at h5
        exact h5.symm
      have h6 := halpha h (List.mem_cons_self h w')
      rw [hhead] at h6
      exact absurd h6 (by decide)
  | case3 c cs hm ih =>
    rintro w hne halpha ⟨r, hr⟩
    rw [replaceAllCI, if_neg hm] at hr
    rcases w with _ | ⟨h, w'⟩
    · exact absurd rfl hne
    · have hr' : toLowerChar c :: toLowerCase (replaceAllCI kw REDACTED cs) = h :: (w' ++ r) := by
        simpa [toLowerCase] using hr
      obtain ⟨hh, htail⟩ := List.cons.inj hr'
      rcases w' with _ | ⟨h2, w''⟩
      · simp [matchesAt, hh.symm]
      · have hm' := ih (h2 :: w'') (by simp)
          (fun x hx => halpha x (List.mem_cons_of_mem _ hx)) ⟨r, htail⟩
        simp [matchesAt, hh.symm, hm']

theorem occurs_replace_of_occurs (kw w : List Char) (hg : goodWord w) :
    ∀ t, Occurs w (toLowerCase (replaceAllCI kw REDACTED t)) → Occurs w (toLowerCase t) := by
  obtain ⟨hne, halpha, hrdt⟩ := hg
  intro t
  induction t using replaceAllCI.induct kw REDACTED with
  | case1 =>
    intro h
    rwa [replaceAllCI] at h
  | case2 c cs hm ih =>
    intro h
    rw [replaceAllCI, if_pos hm] at h
    have h3 := ih ((occurs_through_marker w ⟨hne, halpha, hrdt⟩ _).mp h)
    have h4 : toLowerCase (cs.drop (kw.length - 1)) = (toLowerCase cs).drop (kw.length - 1) := by
      simp [toLowerCase, List.map_drop]
    rw [h4] at h3
    have h5 : Occurs w (toLowerCase cs) := by
      obtain ⟨a, b, hab⟩ := h3
      refine ⟨(toLowerCase cs).take (kw.length - 1) ++ a, b, ?_⟩
      conv_lhs => rw [← List.take_append_drop (kw.length - 1) (toLowerCase cs)]
      rw [hab]
      simp [List.append_assoc]
    rw [show toLowerCase (c :: cs) = toLowerChar c :: toLowerCase cs from by simp [toLowerCase]]
    exact occurs_cons_of w _ _ h5
  | case3 c cs hm ih =>
    intro h
    rw [replaceAllCI, if_neg hm] at h
    rw [show toLowerCase (c :: replaceAllCI kw REDACTED cs)
        = toLowerChar c :: toLowerCase (replaceAllCI kw REDACTED cs) from by simp [toLowerCase],
      occurs_cons_iff] at h
    rw [show toLowerCase (c :: cs) = toLowerChar c :: toLowerCase cs from by simp [toLowerCase]]
    rcases h with ⟨r, hr⟩ | h
    · rcases w with _ | ⟨hch, w'⟩
      · exact absurd rfl hne
      · rw [List.cons_append] at hr
        obtain ⟨hh, htail⟩ := List.cons.inj hr
        rcases w' with _ | ⟨h2, w''⟩
        · exact ⟨[], toLowerCase cs, by rw [hh]; rfl⟩
        · have hm2 := begins_replace_matches kw cs (h2 :: w'') (by simp)
            (fun x hx => halpha x (List.mem_cons_of_mem _ hx)) ⟨r, htail⟩
          obtain ⟨r2, hr2⟩ := (matchesAt_iff (h2 :: w'') cs).mp hm2
          exact ⟨[], r2, by rw [List.nil_append, List.cons_append, hh, hr2]⟩
    · exact occurs_cons_of w _ _ (ih h)

theorem replace_self_erased (kw : List Char) (hg : goodWord kw) :
    ∀ t, ¬ Occurs kw (toLowerCase (replaceAllCI kw REDACTED t)) := by
  obtain ⟨hne, halpha, hrdt⟩ := hg
  intro t
  induction t using replaceAllCI.induct kw REDACTED with
  | case1 =>
    intro h
    rw [replaceAllCI, show toLowerCase ([] : List Char) = [] from rfl, occurs_nil_iff] at h
    exact hne h
  | case2 c cs hm ih =>
    intro h
    rw [replaceAllCI, if_pos hm] at h
    exact ih ((occurs_through_marker kw ⟨hne, halpha, hrdt⟩ _).mp h)
  | case3 c cs hm ih =>
    intro h
    rw [replaceAllCI, if_neg hm] at h
    rw [show toLowerCase (c :: replaceAllCI kw REDACTED cs)
        = toLowerChar c :: toLowerCase (replaceAllCI kw REDACTED cs) from by simp [toLowerCase],
      occurs_cons_iff] at h
    rcases h with ⟨r, hr⟩ | h
    · rcases kw with _ | ⟨k1, kw'⟩
      · exact hne rfl
      · rw [List.cons_append] at hr
        obtain ⟨hh, htail⟩ := List.cons.inj hr
        rcases kw' with _ | ⟨k2, kw''⟩
        · exact hm (by simp [matchesAt, hh.symm])
        · have hm2 := begins_replace_matches (k1 :: k2 :: kw'') cs (k2 :: kw'') (by simp)
            (fun x hx => halpha x (List.mem_cons_of_mem _ hx)) ⟨r, htail⟩
          exact hm (by simp [matchesAt, hh.symm, hm2])
    · exact ih h

theorem matchesAt_false_head (w : List Char) (hne : w ≠ [])
    (halpha : ∀ c ∈ w, isLowerAlpha c = true) (c : Char)
    (hc : isLowerAlpha (toLowerChar c) = false) (t : List Char) :
    matchesAt w (c :: t) = false := by
  rcases w with _ | ⟨k, ks⟩
  · exact absurd rfl hne
  · by_cases hkc : k = toLowerChar c
    · have hk := halpha k (List.mem_cons_self k ks)
      rw [hkc] at hk
      exact (Bool.false_ne_true (hc.symm.trans hk)).elim
    · simp [matchesAt, hkc]

theorem matchesAt_false_letters (kw : List Char) (hg : goodWord kw)
    (mid pre : List Char) (hpre : REDACTED_LETTERS = pre ++ mid)
    (rest : List Char) : matchesAt kw (mid ++ ']' :: rest) = false := by
  obtain ⟨hne, halpha, hrdt⟩ := hg
  by_contra hcon
  rw [Bool.not_eq_false] at hcon
  obtain ⟨r, hr⟩ := (matchesAt_iff kw _).mp hcon
  have hsplit : toLowerCase (mid ++ ']' :: rest)
      = toLowerCase mid ++ ']' :: toLowerCase rest := by
    simp [toLowerCase, show toLowerChar ']' = ']' from by decide]
  rw [hsplit] at hr
  have hrb : ']' ∉ kw := fun hmem => absurd (halpha _ hmem) (by decide)
  obtain ⟨r', hr'⟩ := begins_cut ']' kw (toLowerCase mid) (toLowerCase rest) hrb ⟨r, hr⟩
  have hocc : testCI kw REDACTED_LETTERS = true := by
    rw [testCI_iff]
    refine ⟨toLowerCase pre, r', ?_⟩
    rw [show toLowerCase REDACTED_LETTERS = toLowerCase pre ++ toLowerCase mid from by
        rw [hpre]; simp [toLowerCase],
      hr', List.append_assoc]
  rw [hrdt] at hocc
  exact Bool.false_ne_true hocc

theorem replace_marker_front (kw : List Char) (hg : goodWord kw) (rest : List Char) :
    replaceAllCI kw REDACTED (REDACTED ++ rest) = REDACTED ++ replaceAllCI kw REDACTED rest := by
  obtain ⟨hne, halpha, hrdt⟩ := hg
  have e0 : matchesAt kw
      ('[' :: 'R' :: 'E' :: 'D' :: 'A' :: 'C' :: 'T' :: 'E' :: 'D' :: ']' :: rest) = false :=
    matchesAt_false_head kw hne halpha '[' (by decide) _
  have e1 : matchesAt kw
      ('R' :: 'E' :: 'D' :: 'A' :: 'C' :: 'T' :: 'E' :: 'D' :: ']' :: rest) = false :=
    matchesAt_false_letters kw ⟨hne, halpha, hrdt⟩
      ['R', 'E', 'D', 'A', 'C', 'T', 'E', 'D'] [] (by decide) rest
  have e2 : matchesAt kw ('E' :: 'D' :: 'A' :: 'C' :: 'T' :: 'E' :: 'D' :: ']' :: rest) = false :=
    matchesAt_false_letters kw ⟨hne, halpha, hrdt⟩
      ['E', 'D', 'A', 'C', 'T', 'E', 'D'] ['R'] (by decide) rest
  have e3 : matchesAt kw ('D' :: 'A' :: 'C' :: 'T' :: 'E' :: 'D' :: ']' :: rest) = false :=
    matchesAt_false_letters kw ⟨hne, halpha, hrdt⟩
      ['D', 'A', 'C', 'T', 'E', 'D'] ['R', 'E'] (by decide) rest
  have e4 : matchesAt kw ('A' :: 'C' :: 'T' :: 'E' :: 'D' :: ']' :: rest) = false :=
    matchesAt_false_letters kw ⟨hne, halpha, hrdt⟩
      ['A', 'C', 'T', 'E', 'D'] ['R', 'E', 'D'] (by decide) rest
  have e5 : matchesAt kw ('C' :: 'T' :: 'E' :: 'D' :: ']' :: rest) = false :=
    matchesAt_false_letters kw ⟨hne, halpha, hrdt⟩
      ['C', 'T', 'E', 'D'] ['R', 'E', 'D', 'A'] (by decide) rest
  have e6 : matchesAt kw ('T' :: 'E' :: 'D' :: ']' :: rest) = false :=
    matchesAt_false_letters kw ⟨hne, halpha, hrdt⟩
      ['T', 'E', 'D'] ['R', 'E', 'D', 'A', 'C'] (by decide) rest
  have e7 : matchesAt kw ('E' :: 'D' :: ']' :: rest) = false :=
    matchesAt_false_letters kw ⟨hne, halpha, hrdt⟩
      ['E', 'D'] ['R', 'E', 'D', 'A', 'C', 'T'] (by decide) rest
  have e8 : matchesAt kw ('D' :: ']' :: rest) = false :=
    matchesAt_false_letters kw ⟨hne, halpha, hrdt⟩
      ['D'] ['R', 'E', 'D', 'A', 'C', 'T', 'E'] (by decide) rest
  have e9 : matchesAt kw (']' :: rest) = false :=
    matchesAt_false_head kw hne halpha ']' (by decide) _
  show replaceAllCI kw REDACTED
      ('[' :: 'R' :: 'E' :: 'D' :: 'A' :: 'C' :: 'T' :: 'E' :: 'D' :: ']' :: rest)
    = '[' :: 'R' :: 'E' :: 'D' :: 'A' :: 'C' :: 'T' :: 'E' :: 'D' :: ']' ::
        replaceAllCI kw REDACTED rest
  rw [replaceAllCI, if_neg (by simp [e0])]
  rw [replaceAllCI, if_neg (by simp [e1])]
  rw [replaceAllCI, if_neg (by simp [e2])]
  rw [replaceAllCI, if_neg (by simp [e3])]
  rw [replaceAllCI, if_neg (by simp [e4])]
  rw [replaceAllCI, if_neg (by simp [e5])]
  rw [replaceAllCI, if_neg (by simp [e6])]
  rw [replaceAllCI, if_neg (by simp [e7])]
  rw [replaceAllCI, if_neg (by simp [e8])]
  rw [replaceAllCI, if_neg (by simp [e9])]

theorem occurs_marker_preserved (kw : List Char) (hg : goodWord kw) :
    ∀ t, Occurs REDACTED t → Occurs REDACTED (replaceAllCI kw REDACTED t) := by
  rintro t ⟨a, b, rfl⟩
  induction a with
  | nil =>
    simp only [List.nil_append]
    rw [replace_marker_front kw hg b]
    exact ⟨[], replaceAllCI kw REDACTED b, rfl⟩
  | cons c a' ih =>
    simp only [List.cons_append]
    by_cases hm : matchesAt kw (c :: (a' ++ REDACTED ++ b)) = true
    · rw [replaceAllCI, if_pos (by simpa [List.cons_append, List.append_assoc] using hm)]
      exact ⟨[], _, rfl⟩
    · rw [replaceAllCI, if_neg (by simpa [List.cons_append, List.append_assoc] using hm)]
      exact occurs_cons_of _ _ _ (by simpa [List.cons_append, List.append_assoc] using ih)

theorem occurs_marker_inserted (kw : List Char) (hg : goodWord kw) :
    ∀ t, testCI kw t = true → Occurs REDACTED (replaceAllCI kw REDACTED t) := by
  obtain ⟨hne, halpha, hrdt⟩ := hg
  intro t
  induction t with
  | nil =>
    intro h
    exact absurd (List.isEmpty_iff.mp (by simpa [testCI] using h)) hne
  | cons c cs ih =>
    intro h
    by_cases hm : matchesAt kw (c :: cs) = true
    · rw [replaceAllCI, if_pos hm]
      exact ⟨[], _, rfl⟩
    · rw [replaceAllCI, if_neg hm]
      rw [testCI, Bool.or_eq_true] at h
      rcases h with h | h
      · exact absurd h hm
      · exact occurs_cons_of _ _ _ (ih h)

theorem foldl_fst_true (kws : List (List Char)) :
    ∀ t, (List.foldl moderationStep (true, t) kws).1 = true := by
  induction kws with
  | nil => intro t; rfl
  | cons kw kws ih =>
    intro t
    rw [List.foldl_cons]
    by_cases h : testCI kw t = true
    · rw [show moderationStep (true, t) kw = (true, replaceAllCI kw REDACTED t) from by
        simp [moderationStep, h]]
      exact ih _
    · rw [show moderationStep (true, t) kw = (true, t) from by simp [moderationStep, h]]
      exact ih _

theorem foldl_noop (kws : List (List Char)) :
    ∀ b t, (∀ kw ∈ kws, testCI kw t = false) →
      List.foldl moderationStep (b, t) kws = (b, t) := by
  induction kws with
  | nil => intro b t _; rfl
  | cons kw kws ih =>
    intro b t hall
    rw [List.foldl_cons, show moderationStep (b, t) kw = (b, t) from by
      simp [moderationStep, hall kw (List.mem_cons_self kw kws)]]
    exact ih b t fun w hw => hall w (List.mem_cons_of_mem _ hw)

theorem foldl_found (kws : List (List Char)) :
    ∀ b t, (∃ kw ∈ kws, testCI kw t = true) →
      (List.foldl moderationStep (b, t) kws).1 = true := by
  induction kws with
  | nil => rintro b t ⟨kw, hmem, _⟩; exact absurd hmem (List.not_mem_nil kw)
  | cons kw kws ih =>
    rintro b t ⟨w, hmem, hocc⟩
    rw [List.foldl_cons]
    by_cases h : testCI kw t = true
    · rw [show moderationStep (b, t) kw = (true, replaceAllCI kw REDACTED t) from by
        simp [moderationStep, h]]
      exact foldl_fst_true kws _
    · rw [show moderationStep (b, t) kw = (b, t) from by simp [moderationStep, h]]
      rcases List.mem_cons.mp hmem with rfl | hmem'
      · exact absurd hocc h
      · exact ih b t ⟨w, hmem', hocc⟩

theorem foldl_absent_preserved (w : List Char) (hg : goodWord w) (kws : List (List Char)) :
    ∀ b t, testCI w t = false → testCI w (List.foldl moderationStep (b, t) kws).2 = false := by
  induction kws with
  | nil => intro b t h; exact h
  | cons kw kws ih =>
    intro b t h
    rw [List.foldl_cons]
    by_cases hkw : testCI kw t = true
    · rw [show moderationStep (b, t) kw = (true, replaceAllCI kw REDACTED t) from by
        simp [moderationStep, hkw]]
      refine ih true _ ?_
      by_contra hcon
      rw [Bool.not_eq_false] at hcon
      have hocc := occurs_replace_of_occurs kw w hg t ((testCI_iff w _).mp hcon)
      exact absurd ((testCI_iff w t).mpr hocc) (by simp [h])
    · rw [show moderationStep (b, t) kw = (b, t) from by simp [moderationStep, hkw]]
      exact ih b t h

theorem foldl_all_erased :
    ∀ kws : List (List Char), (∀ kw ∈ kws, goodWord kw) →
      ∀ b t w, w ∈ kws → testCI w (List.foldl moderationStep (b, t) kws).2 = false := by
  intro kws
  induction kws with
  | nil => intro _ b t w hw; exact absurd hw (List.not_mem_nil w)
  | cons kw kws ih =>
    intro hall b t w hw
    have hkwg : goodWord kw := hall kw (List.mem_cons_self kw kws)
    have herased : testCI kw (moderationStep (b, t) kw).2 = false := by
      by_cases hkw : testCI kw t = true
      · rw [show moderationStep (b, t) kw = (true, replaceAllCI kw REDACTED t) from by
          simp [moderationStep, hkw]]
        by_contra hcon
        rw [Bool.not_eq_false] at hcon
        exact replace_self_erased kw hkwg t ((testCI_iff kw _).mp hcon)
      · rw [show moderationStep (b, t) kw = (b, t) from by simp [moderationStep, hkw]]
        simpa using hkw
    rw [List.foldl_cons]
    rcases List.mem_cons.mp hw with rfl | hw'
    · have H := foldl_absent_preserved w hkwg kws (moderationStep (b, t) w).1
        (moderationStep (b, t) w).2 herased
      simpa using H
    · have H := ih (fun k hk => hall k (List.mem_cons_of_mem _ hk))
        (moderationStep (b, t) kw).1 (moderationStep (b, t) kw).2 w hw'
      simpa using H

theorem foldl_marker_preserved :
    ∀ kws : List (List Char), (∀ kw ∈ kws, goodWord kw) →
      ∀ b t, Occurs REDACTED t → Occurs REDACTED (List.foldl moderationStep (b, t) kws).2 := by
  intro kws
  induction kws with
  | nil => intro _ b t h; exact h
  | cons kw kws ih =>
    intro hall b t h
    rw [List.foldl_cons]
    have hkwg := hall kw (List.mem_cons_self kw kws)
    by_cases hkw : testCI kw t = true
    · rw [show moderationStep (b, t) kw = (true, replaceAllCI kw REDACTED t) from by
        simp [moderationStep, hkw]]
      exact ih (fun k hk => hall k (List.mem_cons_of_mem _ hk)) true _
        (occurs_marker_preserved kw hkwg t h)
    · rw [show moderationStep (b, t) kw = (b, t) from by simp [moderationStep, hkw]]
      exact ih (fun k hk => hall k (List.mem_cons_of_mem _ hk)) b t h

theorem foldl_marker_found :
    ∀ kws : List (List Char), (∀ kw ∈ kws, goodWord kw) →
      ∀ b t, (∃ kw ∈ kws, testCI kw t = true) →
        Occurs REDACTED (List.foldl moderationStep (b, t) kws).2 := by
  intro kws
  induction kws with
  | nil => rintro _ b t ⟨kw, hmem, _⟩; exact absurd hmem (List.not_mem_nil kw)
  | cons kw kws ih =>
    rintro hall b t ⟨w, hmem, hocc⟩
    rw [List.foldl_cons]
    have hkwg := hall kw (List.mem_cons_self kw kws)
    by_cases hkw : testCI kw t = true
    · rw [show moderationStep (b, t) kw = (true, replaceAllCI kw REDACTED t) from by
        simp [moderationStep, hkw]]
      exact foldl_marker_preserved kws (fun k hk => hall k (List.mem_cons_of_mem _ hk)) true _
        (occurs_marker_inserted kw hkwg t hkw)
    · rw [show moderationStep (b, t) kw = (b, t) from by simp [moderationStep, hkw]]
      rcases List.mem_cons.mp hmem with rfl | hmem'
      · exact absurd hocc hkw
      · exact ih (fun k hk => hall k (List.mem_cons_of_mem _ hk)) b t ⟨w, hmem', hocc⟩

theorem containsSub_lower_eq_testCI (w t : List Char) :
    containsSub w (toLowerCase t) = testCI w t := by
  have h1 := containsSub_iff w (toLowerCase t)
  have h2 := testCI_iff w t
  cases hc : containsSub w (toLowerCase t) with
  | true => exact (h2.mpr (h1.mp hc)).symm
  | false =>
    cases ht : testCI w t with
    | false => rfl
    | true => exact absurd (h1.mpr (h2.mp ht)) (by simp [hc])

theorem moderate_text_eq (t : List Char) :
    (moderateOutput t).text = (List.foldl moderationStep (false, t) BANNED_KEYWORDS).2 := rfl

theorem moderate_isSafe_eq (t : List Char) :
    (moderateOutput t).isSafe
      = (!(List.foldl moderationStep (false, t) BANNED_KEYWORDS).1) := rfl

theorem moderate_no_banned (t : List Char) :
    ∀ kw ∈ BANNED_KEYWORDS, testCI kw (moderateOutput t).text = false := by
  intro kw hkw
  rw [moderate_text_eq]
  exact foldl_all_erased BANNED_KEYWORDS banned_good false t kw hkw

theorem containsBannedContent_eq (t : List Char) :
    containsBannedContent t = BANNED_KEYWORDS.any fun kw => testCI kw t := by
  simp only [containsBannedContent, containsSub_lower_eq_testCI]

theorem moderate_output_clean (t : List Char) :
    containsBannedContent (moderateOutput t).text = false := by
  rw [containsBannedContent_eq, List.any_eq_false]
  intro kw hkw
  simp only [Bool.not_eq_true]
  exact moderate_no_banned t kw hkw

/-- Claim C5: for every input text, the `text` field of the verdict returned
by `moderateOutput` contains no case-insensitive occurrence of any denylist
term — stated both term by term (`testCI`) and through the matcher
`containsBannedContent` itself: redaction is total. -/
theorem moderation_total_redaction (text : List Char) :
    (∀ kw ∈ BANNED_KEYWORDS, testCI kw (moderateOutput text).text = false) ∧
    containsBannedContent (moderateOutput text).text = false :=
  ⟨moderate_no_banned text, moderate_output_clean text⟩

/-- Claim C6: `moderateOutput` is idempotent with respect to safety — running
it on the `text` field of its own output yields `isSafe = true` (the marker
`[REDACTED]` contains no banned term, a fact baked into `banned_good`). -/
theorem moderation_idempotent_safety (text : List Char) :
    (moderateOutput ((moderateOutput text).text)).isSafe = true := by
  have h := foldl_noop BANNED_KEYWORDS false ((moderateOutput text).text)
    (moderate_no_banned text)
  rw [moderate_isSafe_eq, h]
  rfl

/-- Claim C3: for every text containing at least one denylist term in any
case variant, `containsBannedContent` returns true, and `moderateOutput`
returns `isSafe = false` with a text in which the matched occurrences have
been replaced by the literal marker: no case-insensitive occurrence of any
term survives in the output, and the marker `[REDACTED]` occurs in it. -/
theorem moderation_flags_and_redacts (text : List Char)
    (h : ∃ kw ∈ BANNED_KEYWORDS, testCI kw text = true) :
    containsBannedContent text = true ∧
    (moderateOutput text).isSafe = false ∧
    (∀ kw ∈ BANNED_KEYWORDS, testCI kw (moderateOutput text).text = false) ∧
    Occurs REDACTED (moderateOutput text).text := by
  obtain ⟨kw, hkw, hocc⟩ := h
  refine ⟨?_, ?_, moderate_no_banned text, ?_⟩
  · rw [containsBannedContent_eq, List.any_eq_true]
    exact ⟨kw, hkw, hocc⟩
  · rw [moderate_isSafe_eq, foldl_found BANNED_KEYWORDS false text ⟨kw, hkw, hocc⟩]
    rfl
  · rw [moderate_text_eq]
    exact foldl_marker_found BANNED_KEYWORDS banned_good false text ⟨kw, hkw, hocc⟩

theorem moderation_flags_and_redacts_witness :
    containsBannedContent ['V', 'i', 'o', 'l', 'e', 'n', 'c', 'e', ' ', 'b', 'a', 'd'] = true ∧
    (moderateOutput ['V', 'i', 'o', 'l', 'e', 'n', 'c', 'e', ' ', 'b', 'a', 'd']).isSafe = false ∧
    (∀ kw ∈ BANNED_KEYWORDS,
      testCI kw (moderateOutput ['V', 'i', 'o', 'l', 'e', 'n', 'c', 'e', ' ', 'b', 'a', 'd']).text
        = false) ∧
    Occurs REDACTED (moderateOutput ['V', 'i', 'o', 'l', 'e', 'n', 'c', 'e', ' ', 'b', 'a', 'd']).text :=
  moderation_flags_and_redacts ['V', 'i', 'o', 'l', 'e', 'n', 'c', 'e', ' ', 'b', 'a', 'd']
    ⟨['v', 'i', 'o', 'l', 'e', 'n', 'c', 'e'], by decide, by decide⟩

/-- Claim C4: for every text with no case-insensitive occurrence of any
denylist term, `containsBannedContent` returns false and `moderateOutput`
returns `isSafe = true` with the text unchanged. -/
theorem moderation_preserves_clean_text (text : List Char)
    (h : ∀ kw ∈ BANNED_KEYWORDS, testCI kw text = false) :
    containsBannedContent text = false ∧
    moderateOutput text = { isSafe := true, text := text } := by
  constructor
  · rw [containsBannedContent_eq, List.any_eq_false]
    intro kw hkw
    simp only [Bool.not_eq_true]
    exact h kw hkw
  · have hr := foldl_noop BANNED_KEYWORDS false text h
    have h1 : (moderateOutput text).isSafe = true := by rw [moderate_isSafe_eq, hr]; rfl
    have h2 : (moderateOutput text).text = text := by rw [moderate_text_eq, hr]
    calc moderateOutput text
        = { isSafe := (moderateOutput text).isSafe, text := (moderateOutput text).text } := rfl
      _ = { isSafe := true, text := text } := by rw [h1, h2]

theorem moderation_preserves_clean_text_witness :
    containsBannedContent ['P', 'a', 'r', 'i', 's'] = false ∧
    moderateOutput ['P', 'a', 'r', 'i', 's']
      = { isSafe := true, text := ['P', 'a', 'r', 'i', 's'] } :=
  moderation_preserves_clean_text ['P', 'a', 'r', 'i', 's'] (by decide)

/-- Claim C7: in every run of the orchestrator, the completion client is
invoked (the invocation list is nonempty) exactly when the user input is
nonempty after trimming and free of banned terms; empty or banned input ends
the run with no remote call. -/
theorem client_called_iff_gates_pass
    (client : List Char → Except ApiError (List Char)) (userPrompt : List Char) :
    (mainRun client userPrompt).2 = [] ↔
      ((jsTrim userPrompt).isEmpty = true ∨ containsBannedContent userPrompt = true) := by
  by_cases h1 : (jsTrim userPrompt).isEmpty = true
  · simp [mainRun, h1]
  · by_cases h2 : containsBannedContent userPrompt = true
    · simp [mainRun, h1, h2]
    · cases hc : client userPrompt with
      | error e => simp [mainRun, h1, h2, hc]
      | ok r => simp [mainRun, h1, h2, hc]

/-- Claim C2: whenever the input passes both gates and the completion client
returns a text, the orchestrator moderates that text and displays the
verdict's text unconditionally (the `isSafe` flag only selects the warning
banner, never suppresses the display). -/
theorem orchestrator_displays_moderated_output
    (client : List Char → Except ApiError (List Char)) (userPrompt aiResponse : List Char)
    (h1 : (jsTrim userPrompt).isEmpty = false)
    (h2 : containsBannedContent userPrompt = false)
    (hc : client userPrompt = Except.ok aiResponse) :
    (mainRun client userPrompt).1 = PipelineResult.completed (moderateOutput aiResponse) ∧
    displayedText (mainRun client userPrompt).1 = some (moderateOutput aiResponse).text := by
  have hmain : mainRun client userPrompt
      = (PipelineResult.completed (moderateOutput aiResponse), [userPrompt]) := by
    simp [mainRun, h1, h2, hc]
  rw [hmain]
  exact ⟨rfl, rfl⟩

theorem orchestrator_displays_moderated_output_witness :
    (mainRun (fun _ => Except.ok ['O', 'K']) ['H', 'i']).1
        = PipelineResult.completed (moderateOutput ['O', 'K']) ∧
    displayedText (mainRun (fun _ => Except.ok ['O', 'K']) ['H', 'i']).1
        = some (moderateOutput ['O', 'K']).text :=
  orchestrator_displays_moderated_output (fun _ => Except.ok ['O', 'K']) ['H', 'i'] ['O', 'K']
    (by decide) (by decide) rfl

/-- Claim C8: with the credential absent, `callDeepseekAPI` fails immediately
with the configuration error, issues no request, and the message names the
setting commands of two shells (Windows CMD and Windows PowerShell). -/
theorem missing_key_config_error (userInput : List Char) :
    callDeepseekAPI none userInput
        = (Except.error (ApiError.configError CONFIG_ERROR_MESSAGE), []) ∧
    containsSub ("Windows CMD: set OPENROUTER_API_KEY=your-key-here").data
        CONFIG_ERROR_MESSAGE.data = true ∧
    containsSub ("Windows PowerShell: $env:OPENROUTER_API_KEY=\"your-key-here\"").data
        CONFIG_ERROR_MESSAGE.data = true :=
  ⟨rfl, by decide, by decide⟩

/-- Claim C10: with a configured (truthy) credential, `callDeepseekAPI`
returns `undefined` immediately, having issued no request and taken no other
action — its body is only the credential check, because the brace pair on
line 75 closes both the conditional and the function. -/
theorem configured_key_returns_undefined (apiKey : Option String) (userInput : List Char)
    (h : keyIsConfigured apiKey = true) :
    callDeepseekAPI apiKey userInput = (Except.ok (), []) := by
  simp [callDeepseekAPI, h]

theorem configured_key_returns_undefined_witness :
    callDeepseekAPI (some "sk-or-test-key") ['h', 'i'] = (Except.ok (), []) :=
  configured_key_returns_undefined (some "sk-or-test-key") ['h', 'i'] (by decide)

/-- Claim C1 (evidence for the code bug): at a concrete user message with the
credential configured, `callDeepseekAPI` returns `undefined` and issues no
request — it neither builds the request body nor sends the POST nor returns
any response text.  The request the claim describes is exactly what the
stranded top-level block of lines 77-117 would have built. -/
theorem deepseek_call_issues_no_request :
    callDeepseekAPI (some "sk-or-test-key") ['h', 'e', 'l', 'l', 'o'] = (Except.ok (), []) ∧
    (strandedRequestBody ['h', 'e', 'l', 'l', 'o']).max_tokens = 500 ∧
    (strandedRequestBody ['h', 'e', 'l', 'l', 'o']).temperature = 7 / 10 ∧
    (strandedRequestBody ['h', 'e', 'l', 'l', 'o']).model = "deepseek/deepseek-chat" ∧
    (strandedRequest "sk-or-test-key" ['h', 'e', 'l', 'l', 'o']).method = "POST" ∧
    (strandedRequest "sk-or-test-key" ['h', 'e', 'l', 'l', 'o']).authorization
        = "Bearer sk-or-test-key" :=
  ⟨rfl, rfl, rfl, rfl, rfl, by decide⟩

/-- Claim C9 (evidence for the code bug): the response-handling logic the
claim describes exists only in the stranded top-level block (modelled by
`strandedHandleResponse`, which does map a non-2xx status to
`HttpError{status, body}`, an absent or empty content to the empty-response
error, and a present content to its trimmed text) — while `callDeepseekAPI`
itself, the operation the claim is about, returns without ever inspecting any
response. -/
theorem response_error_handling_stranded :
    callDeepseekAPI (some "sk-or-test-key") ['h', 'i'] = (Except.ok (), []) ∧
    strandedHandleResponse 500 "server overloaded" none
        = Except.error (ApiError.httpError 500 "server overloaded") ∧
    strandedHandleResponse 200 "" none = Except.error ApiError.emptyResponse ∧
    strandedHandleResponse 200 "" (some []) = Except.error ApiError.emptyResponse ∧
    strandedHandleResponse 200 "" (some ['h', 'i', ' ']) = Except.ok ['h', 'i'] :=
  ⟨rfl, rfl, rfl, rfl, rfl⟩

theorem moderation_total_redaction_witness :
    (∀ kw ∈ BANNED_KEYWORDS,
      testCI kw (moderateOutput ['k', 'i', 'l', 'l', 'e', 'r']).text = false) ∧
    containsBannedContent (moderateOutput ['k', 'i', 'l', 'l', 'e', 'r']).text = false :=
  moderation_total_redaction ['k', 'i', 'l', 'l', 'e', 'r']
